import Mathlib

set_option maxHeartbeats 1000000

/- Shallow embedding of src/main.py: the fragment parser (Planning._parse_elem,
   Planning._parse_children, Planning._parse_ord_section) that turns ordinance
   HTML fragments into a tree of content nodes, the text flattener (get_text),
   and the document renderer (cycle_elem, parse_elem). -/

/-- HTML values as seen through BeautifulSoup: a tag with a name and a list of
children, or a NavigableString (text node, whose name is None). -/
inductive Html where
  | tag (name : String) (children : List Html)
  | text (s : String)
  deriving Repr

mutual

/-- Models bs4 get_text: concatenation of all text descendants. -/
def Html.getText : Html → String
  | .text s => s
  | .tag _ cs => getTextL cs

/-- get_text over a list of children. -/
def getTextL : List Html → String
  | [] => ""
  | c :: rest => c.getText ++ getTextL rest

end

/-- Values built by the parser: Python dicts with a single tag key
(p, ul, li, table), Python lists (seq) and raw strings (raw, the
fallback for unknown tags). -/
inductive Node where
  | p (text : String)
  | raw (text : String)
  | seq (items : List Node)
  | li (content : Node)
  | ul (items : List Node)
  | table (header : List Node) (body : List (List Node)) (caption : Option String)
  deriving Repr

/-- Python truthiness of a parsed value: dicts built by the parser are
non-empty hence truthy, a list is truthy iff non-empty, a string is truthy
iff non-empty. -/
def Node.truthy : Node → Bool
  | .raw s => !(s == "")
  | .seq l => !l.isEmpty
  | _ => true

/-- Python truthiness of an optional parsed value (None is falsy). -/
def truthyO : Option Node → Bool
  | none => false
  | some n => n.truthy

/-- The tail of _parse_children: a single recognized child is returned
directly, several become the Python list itself, none becomes None. -/
def collapse : List Node → Option Node
  | [] => none
  | [n] => some n
  | ns => some (.seq ns)

mutual

/-- Pre-order search of one element: the element itself if its name
matches, else its first matching descendant. -/
def findFirstH (name : String) : Html → Option Html
  | .tag n ccs => if n == name then some (.tag n ccs) else findFirst name ccs
  | .text _ => none

/-- Models bs4 elem.find(name) / attribute access: first descendant with the
given name, in pre-order document order, over a list of children. -/
def findFirst (name : String) : List Html → Option Html
  | [] => none
  | c :: rest =>
    match findFirstH name c with
    | some r => some r
    | none => findFirst name rest

end

/-- Python truthiness of a bs4 page element: a Tag defines only __len__,
which is len(self.contents), so an element with no children is falsy; a
NavigableString is a str, falsy when empty. -/
def Html.pyTruthy : Html → Bool
  | .tag _ ccs => !ccs.isEmpty
  | .text s => !(s == "")

/-- Models the caption step of the table branch: if elem.find("caption")
then elem.caption.get_text(). The found caption Tag is tested for Python
truthiness, so a childless caption sets no caption at all. -/
def captionOf (cs : List Html) : Option String :=
  match findFirst "caption" cs with
  | some cap => if cap.pyTruthy then some cap.getText else none
  | none => none

namespace Planning

mutual

/-- Models Planning._parse_elem: one HTML element to an optional node,
errors standing for the exceptions the Python code would raise. -/
def _parse_elem : Html → Except String (Option Node)
  | .text _ => .ok none
  | .tag name cs =>
    if name == "ul" then
      match parseListItems cs with
      | .error e => .error e
      | .ok pts => .ok (some (.ul pts))
    else if name == "table" then
      match findTbodyGo cs with
      | some (.error e) => .error e
      | some (.ok (hdr, body)) => .ok (some (.table hdr body (captionOf cs)))
      | none => .error "AttributeError: NoneType object has no attribute tr"
    else if name == "p" then
      let t := getTextL cs
      if t == "" then .ok none else .ok (some (.p t))
    else if name == "br" then .ok none
    else .ok (some (.raw (getTextL cs)))

/-- The filtering loop of _parse_children: parse each child, keep the
truthy results in order. -/
def parseKids : List Html → Except String (List Node)
  | [] => .ok []
  | c :: rest =>
    match _parse_elem c with
    | .error e => .error e
    | .ok sub =>
      match parseKids rest with
      | .error e => .error e
      | .ok rest' => .ok (if truthyO sub then sub.toList ++ rest' else rest')

/-- The ul branch loop of _parse_elem: every li child whose collapsed
children are truthy contributes a li node. -/
def parseListItems : List Html → Except String (List Node)
  | [] => .ok []
  | pt :: rest =>
    match pt with
    | .tag n lcs =>
      if n == "li" then
        match parseKids lcs with
        | .error e => .error e
        | .ok ks =>
          match parseListItems rest with
          | .error e => .error e
          | .ok rest' =>
            .ok
              (match collapse ks with
               | some sp => if sp.truthy then .li sp :: rest' else rest'
               | none => rest')
      else parseListItems rest
    | .text _ => parseListItems rest

/-- Models "for col in X.find_all(name): sub = _parse_children(col); if sub:
append": the pre-order walk of find_all fused with the cell loop. -/
def find_all_cells (cellName : String) : List Html → Except String (List Node)
  | [] => .ok []
  | c :: rest =>
    match c with
    | .tag n ccs =>
      match
        (if n == cellName then
          match parseKids ccs with
          | .error e => .error e
          | .ok ks =>
            .ok
              (match collapse ks with
               | some sp => if sp.truthy then [sp] else []
               | none => [])
        else .ok [] : Except String (List Node)) with
      | .error e => .error e
      | .ok here =>
        match find_all_cells cellName ccs with
        | .error e => .error e
        | .ok nested =>
          match find_all_cells cellName rest with
          | .error e => .error e
          | .ok rest' => .ok (here ++ nested ++ rest')
    | .text _ => find_all_cells cellName rest

/-- The body loop of the table branch: every tr among the found row's
next siblings contributes the row of its truthy td cells (appended even
when empty). -/
def parseBodyRows : List Html → Except String (List (List Node))
  | [] => .ok []
  | r :: rest =>
    match r with
    | .tag n rcs =>
      if n == "tr" then
        match find_all_cells "td" rcs with
        | .error e => .error e
        | .ok cells =>
          match parseBodyRows rest with
          | .error e => .error e
          | .ok rest' => .ok (cells :: rest')
      else parseBodyRows rest
    | .text _ => parseBodyRows rest

/-- Models elem.tbody of the table branch: pre-order search for the first
tbody descendant; none if there is no tbody (so elem.tbody is None and
the subsequent .tr access raises). -/
def findTbodyGo : List Html → Option (Except String (List Node × List (List Node)))
  | [] => none
  | c :: rest =>
    match c with
    | .tag n ccs =>
      if n == "tbody" then
        some
          (match findTrGo ccs with
           | some r => r
           | none => .error "AttributeError: NoneType object has no attribute find_all")
      else
        match findTbodyGo ccs with
        | some r => some r
        | none => findTbodyGo rest
    | .text _ => findTbodyGo rest

/-- Models elem.tbody.tr and the processing at the found tr: header cells
from find_all("th") on the tr, body rows from the tr's next siblings. -/
def findTrGo : List Html → Option (Except String (List Node × List (List Node)))
  | [] => none
  | c :: rest =>
    match c with
    | .tag n ccs =>
      if n == "tr" then
        some
          (match find_all_cells "th" ccs with
           | .error e => .error e
           | .ok hdr =>
             match parseBodyRows rest with
             | .error e => .error e
             | .ok body => .ok (hdr, body))
      else
        match findTrGo ccs with
        | some r => some r
        | none => findTrGo rest
    | .text _ => findTrGo rest

end

/-- Models Planning._parse_children: parse the element's children, keep
the truthy ones, collapse a singleton to the node itself, several to the
list, none to None. -/
def _parse_children (cs : List Html) : Except String (Option Node) :=
  match parseKids cs with
  | .error e => .error e
  | .ok ks => .ok (collapse ks)

end Planning






/-- One parsed rule of _parse_ord_section: an optional title and the
content nodes accumulated for it. -/
structure Rule where
  title : Option String := none
  content : List Node := []
  deriving Repr

namespace Planning

/-- Whether a soup child is an h3 heading marker. -/
def isH3 : Html → Bool
  | .tag n _ => n == "h3"
  | .text _ => false

/-- The scanning loop of _parse_ord_section over the soup's children,
carrying the rules flushed so far and the rule being accumulated. -/
def parseOrdLoop : List Html → List Rule → Rule → Except String (List Rule)
  | [], rules, current =>
    .ok (if current.content.length > 0 then rules ++ [current] else rules)
  | c :: rest, rules, current =>
    if isH3 c then
      let st := if current.content.length > 0
        then (rules ++ [current], ({} : Rule))
        else (rules, current)
      parseOrdLoop rest st.1 { st.2 with title := some c.getText }
    else
      match _parse_elem c with
      | .error e => .error e
      | .ok content =>
        if truthyO content then
          parseOrdLoop rest rules { current with content := current.content ++ content.toList }
        else parseOrdLoop rest rules current

/-- Models Planning._parse_ord_section: scan the soup's direct children,
cutting rules at h3 markers; None stands for the "Failed to find rule"
path that returns no rules. -/
def _parse_ord_section (cs : List Html) : Except String (Option (List Rule)) :=
  match parseOrdLoop cs [] {} with
  | .error e => .error e
  | .ok rules => .ok (if rules.isEmpty then none else some rules)

end Planning

/-- Python " ".join over a list of strings. -/
def pyJoin (sep : String) : List String → String
  | [] => ""
  | [x] => x
  | x :: xs => x ++ sep ++ pyJoin sep xs

mutual

/-- Models get_text, the text flattener: a Python list joins the flattened
elements with single spaces; a p dict yields its text; ul and li recurse;
a table contributes nothing (diagnostic only); a raw string is iterated
character by character, so a "p" character raises a TypeError through the
string indexing obj[item]. -/
def get_text : Node → Except String String
  | .seq items =>
    match get_text_list items with
    | .error e => .error e
    | .ok ts => .ok (pyJoin " " ts)
  | .p t => .ok t
  | .raw s =>
    if s.contains (Char.ofNat 112) then .error "TypeError: string indices must be integers"
    else .ok ""
  | .li c => get_text c
  | .ul items =>
    match get_text_list items with
    | .error e => .error e
    | .ok ts => .ok (pyJoin " " ts)
  | .table _ _ _ => .ok ""

/-- get_text mapped over the elements of a Python list. -/
def get_text_list : List Node → Except String (List String)
  | [] => .ok []
  | n :: rest =>
    match get_text n with
    | .error e => .error e
    | .ok t =>
      match get_text_list rest with
      | .error e => .error e
      | .ok ts => .ok (t :: ts)

end

/-- A paragraph of the output document: an optional style name and its
runs of text. -/
structure DPara where
  style : Option String := none
  runs : List String := []
  deriving Repr

mutual

/-- A block of the output document or of a table cell: a paragraph, a
heading, or a table carrying its grid of cells and an optional style. -/
inductive Block where
  | para (p : DPara)
  | heading (text : String) (level : Nat)
  | table (rows : List (List DCell)) (style : Option String)

/-- A table cell of the output document: the blocks it holds. -/
inductive DCell where
  | mk (blocks : List Block)

end

/-- The blocks of a cell. -/
def DCell.blocksOf : DCell → List Block
  | .mk bs => bs

/-- The docx-like container the renderer mutates: either the document
itself or a table cell (which has no add_heading). -/
structure Container where
  isDoc : Bool
  blocks : List Block

/-- Appending a block to a container. -/
def Container.add_block (d : Container) (b : Block) : Container :=
  { d with blocks := d.blocks ++ [b] }

/-- Models doc.add_paragraph(text, style): python-docx adds a run only for
non-empty text. -/
def Container.add_paragraph (d : Container) (text : String) (style : Option String) : Container :=
  d.add_block (.para ⟨style, if text == "" then [] else [text]⟩)

/-- Appending a run to a paragraph block. -/
def run_added : Block → String → Block
  | .para q, s => .para ⟨q.style, q.runs ++ [s]⟩
  | b, _ => b

/-- Models paragraph.add_run(text) for the paragraph at block index i of
the container (the renderer only holds references to paragraphs it just
created, so an index into the block list models the reference). -/
def Container.add_run (d : Container) (i : Nat) (s : String) : Container :=
  { d with blocks := d.blocks.set i (run_added (d.blocks.getD i (.para {})) s) }

/-- A freshly created docx table cell: one empty paragraph. -/
def freshCell : DCell := .mk [.para {}]

/-- The bullet style ladder of the li branch of parse_elem. -/
def styles : List String := ["List Bullet", "List Bullet 2", "List Bullet 3"]

/-- Row 0 of a rendered table: each header cell text is the flattened text
of the parsed header cell (cell.text assignment makes a single paragraph
with a single run). -/
def header_row : List Node → Except String (List DCell)
  | [] => .ok []
  | n :: rest =>
    match get_text n with
    | .error e => .error e
    | .ok t =>
      match header_row rest with
      | .error e => .error e
      | .ok cells => .ok (.mk [.para ⟨none, [t]⟩] :: cells)

mutual

/-- The shared body of cycle_elem and parse_elem; cyc is true for a call
that entered through cycle_elem. cycle_elem sends a Python list's first
item to cycle_elem with the open paragraph and the remaining items to
cycle_elem without one; everything else falls to the parse_elem body. The
parse_elem body: a p dict adds a run to the open paragraph or a new
top-level paragraph; a ul dict renders every item through parse_elem at
the same indent; a li dict opens a new bullet paragraph styled by the
indent ladder (clamping past its end) and cycles into its content at
indent+1 with that paragraph open; a table dict emits its caption as a
level-4 heading (only the document has add_heading), a grid with the
flattened header texts as row 0 and one row per body row, rendering each
present cell into a fresh cell seeded with its first paragraph, and the
fixed style; any other value has no .keys() and raises. -/
def render_go (doc : Container) (obj : Node) (indent : Nat) (paragraph : Option Nat)
    (cyc : Bool) : Except String Container :=
  match obj, cyc with
  | .seq [], true => .error "IndexError: list index out of range"
  | .seq (x :: xs), true =>
    match render_go doc x indent paragraph true with
    | .error e => .error e
    | .ok d => cycle_rest d xs indent
  | .p t, _ =>
    match paragraph with
    | some i => .ok (doc.add_run i t)
    | none => .ok (doc.add_paragraph t none)
  | .ul elems, _ => ul_loop doc elems indent
  | .li c, _ =>
    let style := if indent ≥ styles.length
      then styles.getD (styles.length - 1) ""
      else styles.getD indent ""
    let d := doc.add_paragraph "" (some style)
    render_go d c (indent + 1) (some (d.blocks.length - 1)) true
  | .table hdr body caption, _ =>
    match
      (match caption with
       | some capt =>
         if doc.isDoc then .ok (doc.add_block (.heading capt 4))
         else .error "AttributeError: _Cell object has no attribute add_heading"
       | none => .ok doc : Except String Container) with
    | .error e => .error e
    | .ok d =>
      match header_row hdr with
      | .error e => .error e
      | .ok row0 =>
        match fill_rows body hdr.length indent with
        | .error e => .error e
        | .ok rows =>
          .ok (d.add_block (.table (row0 :: rows) (some "LightShading-Accent1")))
  | .seq _, false => .error "AttributeError: list object has no attribute keys"
  | .raw _, _ => .error "AttributeError: str object has no attribute keys"

/-- The loop over obj[1:] of cycle_elem: each remaining item is cycled
with no open paragraph. -/
def cycle_rest : Container → List Node → Nat → Except String Container
  | doc, [], _ => .ok doc
  | doc, x :: xs, indent =>
    match render_go doc x indent none true with
    | .error e => .error e
    | .ok d => cycle_rest d xs indent

/-- The ul branch loop of parse_elem: doc = parse_elem(doc, elem, indent)
for each item, with no open paragraph. -/
def ul_loop : Container → List Node → Nat → Except String Container
  | doc, [], _ => .ok doc
  | doc, e :: es, indent =>
    match render_go doc e indent none false with
    | .error e' => .error e'
    | .ok d => ul_loop d es indent

/-- The body rows of the rendered table, in order. -/
def fill_rows : List (List Node) → Nat → Nat → Except String (List (List DCell))
  | [], _, _ => .ok []
  | row :: rest, colNum, indent =>
    match fill_row_cells row colNum indent with
    | .error e => .error e
    | .ok cells =>
      match fill_rows rest colNum indent with
      | .error e => .error e
      | .ok rows => .ok (cells :: rows)

/-- One body row: for each of the colNum grid columns, a cell of the row
is rendered when present (len(body row) > cell index); the columns beyond
the row's length keep the fresh empty cell. -/
def fill_row_cells : List Node → Nat → Nat → Except String (List DCell)
  | _, 0, _ => .ok []
  | [], k + 1, _ => .ok (List.replicate (k + 1) freshCell)
  | n :: ns, k + 1, indent =>
    match render_go ⟨false, [.para {}]⟩ n indent (some 0) true with
    | .error e => .error e
    | .ok d =>
      match fill_row_cells ns k indent with
      | .error e => .error e
      | .ok cells => .ok (.mk d.blocks :: cells)

end

/-- Rendering one present body cell: cycle_elem into the fresh cell (not
the document), with the cell's first paragraph as the open paragraph. -/
def render_cell (n : Node) (indent : Nat) : Except String DCell :=
  match render_go ⟨false, [.para {}]⟩ n indent (some 0) true with
  | .error e => .error e
  | .ok d => .ok (.mk d.blocks)

/-- Models cycle_elem. -/
def cycle_elem (doc : Container) (obj : Node) (indent : Nat) (paragraph : Option Nat) :
    Except String Container :=
  render_go doc obj indent paragraph true

/-- Models the module-level parse_elem, the document renderer for one
parsed node. -/
def parse_elem (doc : Container) (obj : Node) (indent : Nat) (paragraph : Option Nat) :
    Except String Container :=
  render_go doc obj indent paragraph false






mutual

/-- Size measure for HTML elements, used for strong induction over the
parser's traversal order. -/
def hsize : Html → Nat
  | .tag _ cs => 1 + hsizeL cs
  | .text _ => 1

/-- Size measure for lists of HTML elements. -/
def hsizeL : List Html → Nat
  | [] => 0
  | c :: rest => hsize c + hsizeL rest

end

mutual

/-- Erasing an element: a childless line-break tag disappears, every
other element keeps its name with line breaks erased below it. -/
def eraseBrH : Html → List Html
  | .tag n cs => if n == "br" && cs.isEmpty then [] else [.tag n (eraseBrL cs)]
  | .text s => [.text s]

/-- Erasing every childless line-break element from a fragment, at any
depth. -/
def eraseBrL : List Html → List Html
  | [] => []
  | c :: rest => eraseBrH c ++ eraseBrL rest

end

mutual

/-- No caption's Python truthiness changes under line-break erasure:
every caption element either has no children or keeps at least one child
once childless line breaks are erased. A caption holding only line
breaks is a truthy Tag before erasure and a falsy one after, which flips
whether the table's caption is set. -/
def capSafeH : Html → Bool
  | .tag n ccs =>
    (!(n == "caption") || (ccs.isEmpty || !(eraseBrL ccs).isEmpty)) && capSafeL ccs
  | .text _ => true

/-- capSafeH over a list of children. -/
def capSafeL : List Html → Bool
  | [] => true
  | c :: rest => capSafeH c && capSafeL rest

end

mutual

/-- No paragraph node with empty text occurs anywhere in a parsed value. -/
def noEmptyP : Node → Bool
  | .p t => !(t == "")
  | .raw _ => true
  | .seq l => noEmptyPL l
  | .li c => noEmptyP c
  | .ul l => noEmptyPL l
  | .table hdr body _ => noEmptyPL hdr && noEmptyPB body

/-- noEmptyP over a list of nodes. -/
def noEmptyPL : List Node → Bool
  | [] => true
  | n :: rest => noEmptyP n && noEmptyPL rest

/-- noEmptyP over table body rows. -/
def noEmptyPB : List (List Node) → Bool
  | [] => true
  | r :: rest => noEmptyPL r && noEmptyPB rest

end

mutual

/-- A node whose leaves are only paragraphs, with every sub-list and item
sequence non-empty. -/
def paraOnly : Node → Bool
  | .p _ => true
  | .li c => paraOnly c
  | .ul l => !l.isEmpty && paraOnlyL l
  | .seq l => !l.isEmpty && paraOnlyL l
  | .raw _ => false
  | .table _ _ _ => false

/-- paraOnly over a list of nodes. -/
def paraOnlyL : List Node → Bool
  | [] => true
  | n :: rest => paraOnly n && paraOnlyL rest

end

mutual

/-- The paragraph texts of a node, in document order. -/
def paraTexts : Node → List String
  | .p t => [t]
  | .li c => paraTexts c
  | .ul l => paraTextsL l
  | .seq l => paraTextsL l
  | .raw _ => []
  | .table _ _ _ => []

/-- paraTexts over a list of nodes, concatenated in order. -/
def paraTextsL : List Node → List String
  | [] => []
  | n :: rest => paraTexts n ++ paraTextsL rest

end

mutual

/-- Size measure for nodes, used for strong induction over the flattener. -/
def nsize : Node → Nat
  | .p _ => 1
  | .raw _ => 1
  | .li c => 1 + nsize c
  | .seq l => 1 + nsizeL l
  | .ul l => 1 + nsizeL l
  | .table _ _ _ => 1

/-- Size measure for lists of nodes. -/
def nsizeL : List Node → Nat
  | [] => 0
  | n :: rest => nsize n + nsizeL rest

end

/-- Whether a non-heading child of the fragment contributes content: its
parse succeeds and the result is truthy. -/
def childTruthy (c : Html) : Bool :=
  match Planning._parse_elem c with
  | .ok o => truthyO o
  | .error _ => false

/-- Whether the fragment segment up to the next h3 marker contains a
contributing child. -/
def segHasContent : List Html → Bool
  | [] => false
  | c :: rest => if Planning.isH3 c then false else (childTruthy c || segHasContent rest)

/-- One rule for each h3 marker whose segment (up to the next marker) has
contributing content. -/
def countH3Rules : List Html → Nat
  | [] => 0
  | c :: rest =>
    (if Planning.isH3 c && segHasContent rest then 1 else 0) + countH3Rules rest

/-- The rule count the spec predicts for a fragment: markers followed by
content in their segment, plus one for content before the first marker. -/
def specRuleCount (cs : List Html) : Nat :=
  (if segHasContent cs then 1 else 0) + countH3Rules cs

/-- Whether an element is a paragraph tag. -/
def isPTag : Html → Bool
  | .tag n _ => n == "p"
  | .text _ => false

/-- The non-empty texts of a list of paragraph elements, in order. -/
def pTexts : List Html → List String
  | [] => []
  | c :: rest => (if c.getText == "" then [] else [c.getText]) ++ pTexts rest

/-- The number of rules in a _parse_ord_section result. -/
def numRules : Option (List Rule) → Nat
  | none => 0
  | some rules => rules.length

theorem list_set_append_len {α : Type} (l : List α) (x y : α) :
    (l ++ [x]).set l.length y = l ++ [y] := by
  induction l with
  | nil => rfl
  | cons a as ih => simp [List.set, ih]

theorem list_getD_append_len {α : Type} (l : List α) (x d : α) :
    (l ++ [x]).getD l.length d = x := by
  induction l with
  | nil => rfl
  | cons a as ih => simp [List.getD]

theorem node_ne_seq_single (n : Node) : n ≠ Node.seq [n] := by
  intro h
  have h2 := congrArg nsize h
  simp [nsize, nsizeL] at h2

/-- C1: the claim that no exception ever propagates out of parsing is
contradicted by the code: on a table element with no tbody (which is what
html.parser produces for table markup without an explicit tbody), the
table branch evaluates elem.tbody.tr with elem.tbody = None, so an
AttributeError propagates out of _parse_ord_section instead of a
diagnostic-and-continue. -/
theorem c1_table_without_tbody_raises :
    Planning._parse_ord_section
      [Html.tag "table" [Html.tag "tr" [Html.tag "td" [Html.tag "p" [Html.text "x"]]]]] =
    .error "AttributeError: NoneType object has no attribute tr" := rfl

/-- C5: rendering a Table node with header ["A","B"] and body
[["1","2"],["3"]] produces a 3-row by 2-column grid whose row 0 holds the
flattened header texts, whose cell (1,0) holds the text "1", and whose
cell (2,1), beyond the second body row's length, stays the blank fresh
cell, with no error. -/
theorem c5_table_grid_render :
    parse_elem ⟨true, []⟩ (.table [.p "A", .p "B"] [[.p "1", .p "2"], [.p "3"]] none) 0 none =
    .ok ⟨true, [.table
      [[.mk [.para ⟨none, ["A"]⟩], .mk [.para ⟨none, ["B"]⟩]],
       [.mk [.para ⟨none, ["1"]⟩], .mk [.para ⟨none, ["2"]⟩]],
       [.mk [.para ⟨none, ["3"]⟩], .mk [.para ⟨none, []⟩]]]
      (some "LightShading-Accent1")]⟩ := rfl

/-- C6 counterexample: a list item whose content is the sequence
[Paragraph "a", Paragraph "b"] renders "b" as a new top-level paragraph,
not as a run appended to the item's open bullet paragraph as the claim
states. -/
theorem c6_new_paragraph_counterexample :
    parse_elem ⟨true, []⟩ (.li (.seq [.p "a", .p "b"])) 0 none =
      .ok ⟨true, [.para ⟨some "List Bullet", ["a"]⟩, .para ⟨none, ["b"]⟩]⟩ ∧
    parse_elem ⟨true, []⟩ (.li (.seq [.p "a", .p "b"])) 0 none ≠
      .ok ⟨true, [.para ⟨some "List Bullet", ["a", "b"]⟩]⟩ := by
  refine ⟨rfl, ?_⟩
  intro h
  rw [show parse_elem ⟨true, []⟩ (.li (.seq [.p "a", .p "b"])) 0 none =
      .ok ⟨true, [.para ⟨some "List Bullet", ["a"]⟩, .para ⟨none, ["b"]⟩]⟩ from rfl] at h
  simp at h

/-- C6 amended: the list item branch recurses into the item's children
with indent+1 (visible through the bullet style ladder in the second
conjunct), but only the first node of the item's sequence is directed at
the item's open paragraph; every later node is rendered with no open
paragraph, so additional Paragraph nodes become new top-level
paragraphs. -/
theorem c6_list_item_render :
    (∀ (doc : Container) (a b : String),
      parse_elem doc (.li (.seq [.p a, .p b])) 0 none =
        .ok { doc with blocks := doc.blocks ++
          [.para ⟨some "List Bullet", [a]⟩,
           .para ⟨none, if b == "" then [] else [b]⟩] })
    ∧ parse_elem ⟨true, []⟩ (.li (.seq [.p "a", .ul [.li (.p "c")], .p "b"])) 0 none =
        .ok ⟨true, [.para ⟨some "List Bullet", ["a"]⟩,
                    .para ⟨some "List Bullet 2", ["c"]⟩,
                    .para ⟨none, ["b"]⟩]⟩ := by
  constructor
  · intro doc a b
    simp [parse_elem, render_go, cycle_rest, Container.add_paragraph,
      Container.add_block, Container.add_run, run_added, styles,
      list_set_append_len, list_getD_append_len]
  · rfl

/-- C7 counterexample: the parser does not trim paragraph text: a p
element whose text is " a " yields Paragraph " a ", not Paragraph "a". -/
theorem c7_untrimmed_counterexample :
    Planning._parse_elem (.tag "p" [.text " a "]) = .ok (some (.p " a ")) ∧
    Planning._parse_elem (.tag "p" [.text " a "]) ≠ .ok (some (.p "a")) := by
  refine ⟨rfl, ?_⟩
  intro h
  rw [show Planning._parse_elem (.tag "p" [.text " a "]) = .ok (some (.p " a ")) from rfl] at h
  simp at h

/-- C10: a ul element all of whose items yield zero recognized children
still parses to a List node with an empty item sequence; that empty List
is truthy as a non-empty dict, so a rule containing only such a list is
kept by _parse_ord_section. -/
theorem c10_empty_list_retained (cs : List Html)
    (h : Planning.parseListItems cs = .ok []) :
    Planning._parse_elem (.tag "ul" cs) = .ok (some (.ul [])) ∧
    Node.truthy (.ul []) = true ∧
    Planning._parse_ord_section [Html.tag "ul" cs] = .ok (some [⟨none, [.ul []]⟩]) := by
  have he : Planning._parse_elem (.tag "ul" cs) = .ok (some (.ul [])) := by
    simp [Planning._parse_elem, h]
  refine ⟨he, rfl, ?_⟩
  simp [Planning._parse_ord_section, Planning.parseOrdLoop, Planning.isH3, he,
    truthyO, Node.truthy]

/-- C10 witness: a ul with one li whose children list is empty. -/
theorem c10_empty_list_retained_witness :
    Planning._parse_ord_section [Html.tag "ul" [Html.tag "li" []]] =
      .ok (some [⟨none, [.ul []]⟩]) :=
  (c10_empty_list_retained [Html.tag "li" []] rfl).2.2

/-- C2: collapsing of list items and table cells: when exactly one child
of an item/cell is recognized, _parse_children yields that child itself
and not a one-element sequence; when two or more are recognized it yields
the ordered sequence; when none is recognized it yields None, the li item
is omitted from the list, and the th/td cell contributes nothing to the
cells of its row. -/
theorem c2_collapse_invariant (cs : List Html) (ns : List Node) (rest : List Html)
    (h : Planning.parseKids cs = .ok ns) :
    (∀ n, ns = [n] → Planning._parse_children cs = .ok (some n) ∧
      Planning._parse_children cs ≠ .ok (some (Node.seq [n])))
    ∧ (2 ≤ ns.length → Planning._parse_children cs = .ok (some (.seq ns)))
    ∧ (ns = [] → Planning._parse_children cs = .ok none
        ∧ Planning.parseListItems (Html.tag "li" cs :: rest) = Planning.parseListItems rest
        ∧ ∀ name, Planning.find_all_cells name (Html.tag name cs :: rest) =
            (match Planning.find_all_cells name cs with
             | .error e => .error e
             | .ok nested =>
               match Planning.find_all_cells name rest with
               | .error e => .error e
               | .ok r => .ok (nested ++ r))) := by
  refine ⟨?_, ?_, ?_⟩
  · intro n hn
    subst hn
    constructor
    · simp [Planning._parse_children, h, collapse]
    · simp [Planning._parse_children, h, collapse]
      exact node_ne_seq_single n
  · intro hlen
    match ns, hlen with
    | a :: b :: t, _ => simp [Planning._parse_children, h, collapse]
  · intro hn
    subst hn
    refine ⟨by simp [Planning._parse_children, h, collapse], ?_, ?_⟩
    · simp only [Planning.parseListItems, h]
      cases hr : Planning.parseListItems rest <;> simp [collapse]
    · intro name
      simp only [Planning.find_all_cells, h, beq_self_eq_true, if_true, collapse]
      cases hn2 : Planning.find_all_cells name cs <;>
        cases hr : Planning.find_all_cells name rest <;> simp

/-- C2 witness: a li whose children hold one non-empty paragraph and a
line break collapses to the paragraph node itself. -/
theorem c2_collapse_invariant_witness :
    Planning._parse_children [Html.tag "p" [Html.text "x"], Html.tag "br" []] =
      .ok (some (.p "x")) :=
  ((c2_collapse_invariant [Html.tag "p" [Html.text "x"], Html.tag "br" []]
    [.p "x"] [] rfl).1 (.p "x") rfl).1

theorem nsize_pos (n : Node) : 1 ≤ nsize n := by
  cases n <;> simp [nsize]

theorem parse_p_eval (cs : List Html) :
    Planning._parse_elem (.tag "p" cs) =
      .ok (if getTextL cs == "" then none else some (.p (getTextL cs))) := by
  by_cases h : getTextL cs == "" <;> simp [Planning._parse_elem, h]

theorem parseOrdLoop_length :
    ∀ (cs : List Html) (rules : List Rule) (current : Rule) (res : List Rule),
      Planning.parseOrdLoop cs rules current = .ok res →
      res.length = rules.length +
        (if 0 < current.content.length ∨ segHasContent cs then 1 else 0) +
        countH3Rules cs := by
  intro cs
  induction cs with
  | nil =>
    intro rules current res h
    simp only [Planning.parseOrdLoop, Except.ok.injEq] at h
    subst h
    simp only [segHasContent, countH3Rules]
    by_cases hc : 0 < current.content.length <;> simp [hc]
  | cons c rest ih =>
    intro rules current res h
    simp only [Planning.parseOrdLoop] at h
    by_cases hh : Planning.isH3 c = true
    · simp only [hh, if_true] at h
      by_cases hc : 0 < current.content.length
      · rw [if_pos hc] at h
        have hthis := ih _ _ _ h
        simp only [segHasContent, countH3Rules, hh, if_true] at hthis ⊢
        simp [hc] at hthis ⊢
        by_cases hs : segHasContent rest = true <;> simp [hs] at hthis ⊢ <;> omega
      · rw [if_neg hc] at h
        have hthis := ih _ _ _ h
        simp only [segHasContent, countH3Rules, hh, if_true] at hthis ⊢
        simp [hc] at hthis ⊢
        by_cases hs : segHasContent rest = true <;> simp [hs] at hthis ⊢ <;> omega
    · simp only [hh, Bool.false_eq_true, if_false] at h
      cases hpe : Planning._parse_elem c with
      | error e => rw [hpe] at h; simp at h
      | ok o =>
        rw [hpe] at h
        have hct : childTruthy c = truthyO o := by simp [childTruthy, hpe]
        by_cases ht : truthyO o = true
        · simp only [ht, if_true] at h
          have hthis := ih _ _ _ h
          cases o with
          | none => simp [truthyO] at ht
          | some n =>
            simp only [segHasContent, countH3Rules, hh, hct, ht,
              Bool.false_eq_true, if_false] at hthis ⊢
            simp at hthis ⊢
            omega
        · simp only [ht, Bool.false_eq_true, if_false] at h
          have hthis := ih _ _ _ h
          simp only [segHasContent, countH3Rules, hh, hct, ht,
            Bool.false_eq_true, if_false] at hthis ⊢
          simp at hthis ⊢
          by_cases hs : segHasContent rest = true <;> simp [hs] at hthis ⊢ <;> omega

/-- C4: the number of rules _parse_ord_section emits equals the number of
h3 markers whose segment (up to the next marker) contains contributing
content, plus one if contributing content occurs before the first
marker. -/
theorem c4_rule_count (cs : List Html) (res : Option (List Rule))
    (h : Planning._parse_ord_section cs = .ok res) :
    numRules res = specRuleCount cs := by
  unfold Planning._parse_ord_section at h
  cases hl : Planning.parseOrdLoop cs [] {} with
  | error e => rw [hl] at h; simp at h
  | ok rules =>
    rw [hl] at h
    simp only [Except.ok.injEq] at h
    subst h
    have hlen := parseOrdLoop_length cs [] {} rules hl
    simp only [List.length_nil] at hlen
    by_cases he : rules.isEmpty
    · simp only [he, if_true, numRules]
      have : rules.length = 0 := by simp [List.isEmpty_iff] at he; simp [he]
      rw [this] at hlen
      simp only [specRuleCount]
      by_cases hs : segHasContent cs = true <;> simp [hs] at hlen ⊢ <;> omega
    · simp only [he, if_false, Bool.false_eq_true, numRules, specRuleCount]
      by_cases hs : segHasContent cs = true <;> simp [hs] at hlen ⊢ <;> omega

/-- C4 witness: one fragment with content before the first marker and one
marker with content. -/
theorem c4_rule_count_witness :
    numRules (some [⟨none, [.p "x"]⟩, ⟨some "T", [.p "y"]⟩]) =
      specRuleCount [Html.tag "p" [Html.text "x"], Html.tag "h3" [Html.text "T"],
        Html.tag "p" [Html.text "y"]] :=
  c4_rule_count _ _ rfl

theorem parseOrdLoop_allP :
    ∀ (cs : List Html) (rules : List Rule) (current : Rule),
      (∀ c ∈ cs, isPTag c = true) →
      Planning.parseOrdLoop cs rules current = .ok
        (if 0 < current.content.length + (pTexts cs).length
         then rules ++ [⟨current.title, current.content ++ (pTexts cs).map Node.p⟩]
         else rules) := by
  intro cs
  induction cs with
  | nil =>
    intro rules current _
    simp only [Planning.parseOrdLoop, pTexts, List.length_nil, Nat.add_zero,
      List.map_nil, List.append_nil]
  | cons c rest ih =>
    intro rules current hall
    have hc := hall c (List.mem_cons_self c rest)
    match c, hc with
    | .tag n ccs, hc =>
      have hn : n = "p" := by simpa [isPTag] using hc
      subst hn
      have hrest : ∀ c ∈ rest, isPTag c = true := fun x hx => hall x (List.mem_cons_of_mem _ hx)
      simp only [Planning.parseOrdLoop]
      have hh3 : Planning.isH3 (Html.tag "p" ccs) = false := by simp [Planning.isH3]
      rw [hh3]
      simp only [Bool.false_eq_true, if_false]
      rw [parse_p_eval]
      by_cases ht : getTextL ccs == ""
      · simp only [ht, if_true, truthyO, Bool.false_eq_true, if_false]
        have := ih rules current hrest
        simp only [pTexts, Html.getText, ht, if_true, List.nil_append]
        exact this
      · simp only [ht, Bool.false_eq_true, if_false, truthyO, Node.truthy, if_true]
        have := ih rules { current with content := current.content ++ [Node.p (getTextL ccs)] } hrest
        simp only [List.length_append, List.length_cons, List.length_nil] at this
        simp only [pTexts, Html.getText, ht, Bool.false_eq_true, if_false,
          List.singleton_append, List.length_cons, List.map_cons]
        rw [show (Option.toList (some (Node.p (getTextL ccs)))) = [Node.p (getTextL ccs)] from rfl]
        have harr : 0 < current.content.length + 1 + (pTexts rest).length := by omega
        have harr2 : 0 < current.content.length + ((pTexts rest).length + 1) := by omega
        rw [if_pos harr] at this
        rw [if_pos harr2]
        simpa [List.append_assoc] using this

/-- C3 counterexample: a fragment whose only child is a paragraph with
empty text yields no rules at all (the "Failed to find rule" path), not
one title-less Rule with empty content as the claim implies. -/
theorem c3_all_empty_counterexample :
    Planning._parse_ord_section [Html.tag "p" []] = .ok none ∧
    ((Except.ok none : Except String (Option (List Rule))) ≠ .ok (some [({} : Rule)])) := by
  exact ⟨rfl, by simp⟩

/-- C3 amended: for a fragment whose direct children are all paragraph
elements, at least one with non-empty text, parsing yields exactly one
title-less Rule whose content is the sequence of the non-empty paragraph
texts in document order. -/
theorem c3_paragraph_only_fragment (cs : List Html)
    (hall : ∀ c ∈ cs, isPTag c = true) (hne : pTexts cs ≠ []) :
    Planning._parse_ord_section cs = .ok (some [⟨none, (pTexts cs).map Node.p⟩]) := by
  unfold Planning._parse_ord_section
  rw [parseOrdLoop_allP cs [] {} hall]
  have hpos : 0 < (0 : Nat) + (pTexts cs).length := by
    simpa [List.length_pos] using hne
  simp at hpos
  simp [hpos, List.length_pos, hne]

/-- C3 witness: two paragraph children, one with non-empty text. -/
theorem c3_paragraph_only_fragment_witness :
    Planning._parse_ord_section [Html.tag "p" [Html.text "hi"], Html.tag "p" []] =
      .ok (some [⟨none, [.p "hi"]⟩]) :=
  c3_paragraph_only_fragment _ (by decide) (by decide)

theorem pyJoin_append : ∀ (xs ys : List String), xs ≠ [] → ys ≠ [] →
    pyJoin " " (xs ++ ys) = pyJoin " " xs ++ " " ++ pyJoin " " ys
  | [], _, hx, _ => absurd rfl hx
  | [_], [], _, hy => absurd rfl hy
  | [a], b :: bs, _, _ => by simp [pyJoin]
  | a :: a2 :: as2, ys, _, hy => by
    have hrec := pyJoin_append (a2 :: as2) ys (by simp) hy
    simp only [List.cons_append] at hrec ⊢
    simp only [pyJoin]
    rw [hrec]
    simp [String.append_assoc]

theorem paraTextsL_eq (l : List Node) :
    paraTextsL l = (l.map paraTexts).flatten := by
  induction l with
  | nil => rfl
  | cons n rest ih => simp [paraTextsL, ih]

theorem pyJoin_map_flatten : ∀ (xss : List (List String)), (∀ xs ∈ xss, xs ≠ []) →
    pyJoin " " (xss.map (pyJoin " ")) = pyJoin " " xss.flatten
  | [], _ => rfl
  | [xs], _ => by simp [pyJoin]
  | xs :: xs2 :: rest, h => by
    have h1 : xs ≠ [] := h xs (by simp)
    have hrec := pyJoin_map_flatten (xs2 :: rest) (fun x hx => h x (by simp [hx]))
    have hjoin_ne : (xs2 :: rest).flatten ≠ [] := by
      have h2 : xs2 ≠ [] := h xs2 (by simp)
      simp only [List.flatten_cons]
      exact List.append_ne_nil_of_left_ne_nil h2 _
    have key : pyJoin " " (xs ++ (xs2 :: rest).flatten)
        = pyJoin " " xs ++ " " ++ pyJoin " " ((xs2 :: rest).flatten) :=
      pyJoin_append _ _ h1 hjoin_ne
    rw [show (xs :: xs2 :: rest).flatten = xs ++ (xs2 :: rest).flatten from rfl, key, ← hrec]
    simp only [List.map_cons, pyJoin]

theorem get_text_list_paraOnly :
    ∀ (N : Nat), (∀ (m : Node), nsize m ≤ N → paraOnly m = true →
        get_text m = .ok (pyJoin " " (paraTexts m)) ∧ paraTexts m ≠ []) →
      ∀ (l : List Node), nsizeL l ≤ N → paraOnlyL l = true →
        get_text_list l = .ok (l.map fun x => pyJoin " " (paraTexts x)) ∧
        ∀ xs ∈ l.map paraTexts, xs ≠ [] := by
  intro N hih l
  induction l with
  | nil => intro _ _; exact ⟨rfl, by simp⟩
  | cons x rest ihl =>
    intro hn hp
    simp only [paraOnlyL, Bool.and_eq_true] at hp
    have hx := hih x (by simp only [nsizeL] at hn; omega) hp.1
    have hrest := ihl (by simp only [nsizeL] at hn; omega) hp.2
    constructor
    · simp only [get_text_list, hx.1, hrest.1, List.map_cons]
    · intro xs hxs
      simp only [List.map_cons, List.mem_cons] at hxs
      cases hxs with
      | inl hl => rw [hl]; exact hx.2
      | inr hr => exact hrest.2 xs hr

theorem get_text_paraOnly :
    ∀ (N : Nat) (n : Node), nsize n ≤ N → paraOnly n = true →
      get_text n = .ok (pyJoin " " (paraTexts n)) ∧ paraTexts n ≠ [] := by
  intro N
  induction N with
  | zero =>
    intro n hn _
    exact absurd hn (by have := nsize_pos n; omega)
  | succ N ih =>
    intro n hn hp
    cases n with
    | p t => exact ⟨rfl, by simp [paraTexts]⟩
    | raw s => simp [paraOnly] at hp
    | table hdr body cap => simp [paraOnly] at hp
    | li c =>
      have h1 : nsize c ≤ N := by simp only [nsize] at hn; omega
      have h2 : paraOnly c = true := by simpa [paraOnly] using hp
      have hc := ih c h1 h2
      exact ⟨by simp only [get_text, paraTexts]; exact hc.1,
        by simp only [paraTexts]; exact hc.2⟩
    | ul l =>
      simp only [paraOnly, Bool.and_eq_true] at hp
      have hlist := get_text_list_paraOnly N ih l (by simp only [nsize] at hn; omega) hp.2
      have hne : l ≠ [] := by
        intro hl
        rw [hl] at hp
        simp [List.isEmpty] at hp
      constructor
      · simp only [get_text, hlist.1]
        rw [show (l.map fun x => pyJoin " " (paraTexts x)) =
          (l.map paraTexts).map (pyJoin " ") by simp [List.map_map]]
        rw [pyJoin_map_flatten _ hlist.2]
        simp only [paraTexts, paraTextsL_eq]
      · simp only [paraTexts, paraTextsL_eq]
        cases l with
        | nil => exact absurd rfl hne
        | cons x rest =>
          simp only [List.map_cons, List.flatten_cons]
          exact List.append_ne_nil_of_left_ne_nil (hlist.2 (paraTexts x) (by simp)) _
    | seq l =>
      simp only [paraOnly, Bool.and_eq_true] at hp
      have hlist := get_text_list_paraOnly N ih l (by simp only [nsize] at hn; omega) hp.2
      have hne : l ≠ [] := by
        intro hl
        rw [hl] at hp
        simp [List.isEmpty] at hp
      constructor
      · simp only [get_text, hlist.1]
        rw [show (l.map fun x => pyJoin " " (paraTexts x)) =
          (l.map paraTexts).map (pyJoin " ") by simp [List.map_map]]
        rw [pyJoin_map_flatten _ hlist.2]
        simp only [paraTexts, paraTextsL_eq]
      · simp only [paraTexts, paraTextsL_eq]
        cases l with
        | nil => exact absurd rfl hne
        | cons x rest =>
          simp only [List.map_cons, List.flatten_cons]
          exact List.append_ne_nil_of_left_ne_nil (hlist.2 (paraTexts x) (by simp)) _

/-- C8 counterexample: a List containing an empty sub-list flattens with a
doubled separator: the claim's space-joined concatenation of the
paragraph texts would be "a", but get_text returns " a". The input is
producible by the parser from ul [li [ul []], li [p "a"]]. -/
theorem c8_empty_sublist_counterexample :
    get_text (.ul [.li (.ul []), .li (.p "a")]) = .ok " a" ∧ (" a" : String) ≠ "a" :=
  ⟨rfl, by decide⟩

/-- C8 amended: for a List node whose leaves are only Paragraph nodes and
whose sub-lists and item sequences are all non-empty, the text flattener
returns the space-joined concatenation of the paragraph texts, at any
nesting depth. -/
theorem c8_flatten_para_list (items : List Node) (h : paraOnly (.ul items) = true) :
    get_text (.ul items) = .ok (pyJoin " " (paraTexts (.ul items))) :=
  (get_text_paraOnly (nsize (.ul items)) _ le_rfl h).1

/-- C8 witness: a two-item list, the second item a sequence of two
paragraphs, flattens to "a b c". -/
theorem c8_flatten_para_list_witness :
    paraOnly (.ul [.li (.p "a"), .li (.seq [.p "b", .p "c"])]) = true ∧
    get_text (.ul [.li (.p "a"), .li (.seq [.p "b", .p "c"])]) = .ok "a b c" :=
  ⟨rfl, c8_flatten_para_list [.li (.p "a"), .li (.seq [.p "b", .p "c"])] rfl⟩

theorem hsize_pos (h : Html) : 1 ≤ hsize h := by
  cases h <;> simp [hsize]

theorem noEmptyPL_append (a b : List Node) :
    noEmptyPL (a ++ b) = (noEmptyPL a && noEmptyPL b) := by
  induction a with
  | nil => simp [noEmptyPL]
  | cons x xs ih => simp [noEmptyPL, ih, Bool.and_assoc]

theorem noEmptyP_collapse (ks : List Node) (h : noEmptyPL ks = true) :
    ∀ sp, collapse ks = some sp → noEmptyP sp = true := by
  intro sp hc
  match ks, hc with
  | [n], hc =>
    simp only [collapse, Option.some.injEq] at hc
    subst hc
    simp only [noEmptyPL, Bool.and_eq_true] at h
    exact h.1
  | a :: b :: t, hc =>
    simp only [collapse, Option.some.injEq] at hc
    subst hc
    simpa [noEmptyP] using h

theorem parse_elem_noEmpty_of (cs : List Html)
    (h2 : ∀ ns, Planning.parseListItems cs = .ok ns → noEmptyPL ns = true)
    (h5 : ∀ hdr body, Planning.findTbodyGo cs = some (.ok (hdr, body)) →
      noEmptyPL hdr = true ∧ noEmptyPB body = true) :
    ∀ nm node, Planning._parse_elem (.tag nm cs) = .ok (some node) →
      noEmptyP node = true := by
  intro nm node h
  simp only [Planning._parse_elem] at h
  by_cases hul : (nm == "ul") = true
  · rw [if_pos hul] at h
    cases hli : Planning.parseListItems cs with
    | error e => rw [hli] at h; simp at h
    | ok pts =>
      rw [hli] at h
      simp only [Except.ok.injEq, Option.some.injEq] at h
      subst h
      simpa [noEmptyP] using h2 pts hli
  · rw [if_neg (by simp [hul])] at h
    by_cases htb : (nm == "table") = true
    · rw [if_pos htb] at h
      cases htg : Planning.findTbodyGo cs with
      | none => rw [htg] at h; simp at h
      | some r =>
        cases r with
        | error e => rw [htg] at h; simp at h
        | ok pr =>
          rw [htg] at h
          simp only [Except.ok.injEq, Option.some.injEq] at h
          subst h
          have := h5 pr.1 pr.2 (by rw [htg])
          simp [noEmptyP, this.1, this.2]
    · rw [if_neg (by simp [htb])] at h
      by_cases hp : (nm == "p") = true
      · rw [if_pos hp] at h
        by_cases hgt : (getTextL cs == "") = true
        · rw [if_pos hgt] at h; simp at h
        · rw [if_neg (by simp [hgt])] at h
          simp only [Except.ok.injEq, Option.some.injEq] at h
          subst h
          simp [noEmptyP, hgt]
      · rw [if_neg (by simp [hp])] at h
        by_cases hbr : (nm == "br") = true
        · rw [if_pos hbr] at h; simp at h
        · rw [if_neg (by simp [hbr])] at h
          simp only [Except.ok.injEq, Option.some.injEq] at h
          subst h
          simp [noEmptyP]

theorem parser_noEmpty_facts :
    ∀ (N : Nat) (cs : List Html), hsizeL cs ≤ N →
      (∀ ns, Planning.parseKids cs = .ok ns → noEmptyPL ns = true)
      ∧ (∀ ns, Planning.parseListItems cs = .ok ns → noEmptyPL ns = true)
      ∧ (∀ name ns, Planning.find_all_cells name cs = .ok ns → noEmptyPL ns = true)
      ∧ (∀ rs, Planning.parseBodyRows cs = .ok rs → noEmptyPB rs = true)
      ∧ (∀ hdr body, Planning.findTbodyGo cs = some (.ok (hdr, body)) →
          noEmptyPL hdr = true ∧ noEmptyPB body = true)
      ∧ (∀ hdr body, Planning.findTrGo cs = some (.ok (hdr, body)) →
          noEmptyPL hdr = true ∧ noEmptyPB body = true) := by
  intro N
  induction N with
  | zero =>
    intro cs hcs
    match cs with
    | [] =>
      refine ⟨?_, ?_, ?_, ?_, ?_, ?_⟩
      · intro ns h; simp only [Planning.parseKids, Except.ok.injEq] at h; subst h; rfl
      · intro ns h; simp only [Planning.parseListItems, Except.ok.injEq] at h; subst h; rfl
      · intro name ns h; simp only [Planning.find_all_cells, Except.ok.injEq] at h; subst h; rfl
      · intro rs h; simp only [Planning.parseBodyRows, Except.ok.injEq] at h; subst h; rfl
      · intro hdr body h; simp [Planning.findTbodyGo] at h
      · intro hdr body h; simp [Planning.findTrGo] at h
    | c :: rest =>
      exfalso
      have h1 := hsize_pos c
      simp only [hsizeL] at hcs
      omega
  | succ N ih =>
    intro cs hcs
    match cs with
    | [] => exact ih [] (by simp [hsizeL])
    | c :: rest =>
      have hrest : hsizeL rest ≤ N := by
        have h1 := hsize_pos c
        simp only [hsizeL] at hcs
        omega
      obtain ⟨R1, R2, R3, R4, R5, R6⟩ := ih rest hrest
      cases c with
      | text s =>
        refine ⟨?_, ?_, ?_, ?_, ?_, ?_⟩
        · intro ns h
          simp only [Planning.parseKids, Planning._parse_elem] at h
          cases hk : Planning.parseKids rest with
          | error e => rw [hk] at h; simp at h
          | ok rest2 =>
            rw [hk] at h
            simp only [truthyO, Bool.false_eq_true, if_false, Except.ok.injEq] at h
            subst h
            exact R1 rest2 hk
        · intro ns h
          simp only [Planning.parseListItems] at h
          exact R2 ns h
        · intro name ns h
          simp only [Planning.find_all_cells] at h
          exact R3 name ns h
        · intro rs h
          simp only [Planning.parseBodyRows] at h
          exact R4 rs h
        · intro hdr body h
          simp only [Planning.findTbodyGo] at h
          exact R5 hdr body h
        · intro hdr body h
          simp only [Planning.findTrGo] at h
          exact R6 hdr body h
      | tag n ccs =>
        have hccs : hsizeL ccs ≤ N := by
          simp only [hsizeL, hsize] at hcs
          omega
        obtain ⟨C1, C2, C3, C4, C5, C6⟩ := ih ccs hccs
        have CE := parse_elem_noEmpty_of ccs C2 C5
        refine ⟨?_, ?_, ?_, ?_, ?_, ?_⟩
        · intro ns h
          simp only [Planning.parseKids] at h
          cases hpe : Planning._parse_elem (.tag n ccs) with
          | error e => rw [hpe] at h; simp at h
          | ok sub =>
            rw [hpe] at h
            cases hk : Planning.parseKids rest with
            | error e => rw [hk] at h; simp at h
            | ok rest2 =>
              rw [hk] at h
              simp only [Except.ok.injEq] at h
              subst h
              by_cases ht : truthyO sub = true
              · rw [if_pos ht]
                cases sub with
                | none => simp [truthyO] at ht
                | some nd =>
                  simp only [Option.toList, List.singleton_append, noEmptyPL,
                    Bool.and_eq_true]
                  exact ⟨CE n nd hpe, R1 rest2 hk⟩
              · rw [if_neg ht]
                exact R1 rest2 hk
        · intro ns h
          simp only [Planning.parseListItems] at h
          by_cases hli : (n == "li") = true
          · rw [if_pos hli] at h
            cases hk : Planning.parseKids ccs with
            | error e => rw [hk] at h; simp at h
            | ok ks =>
              rw [hk] at h
              cases hr : Planning.parseListItems rest with
              | error e => rw [hr] at h; simp at h
              | ok rest2 =>
                rw [hr] at h
                simp only [Except.ok.injEq] at h
                subst h
                cases hc : collapse ks with
                | none => exact R2 rest2 hr
                | some sp =>
                  simp only []
                  by_cases hsp : sp.truthy = true
                  · rw [if_pos hsp]
                    simp only [noEmptyPL, Bool.and_eq_true]
                    refine ⟨?_, R2 rest2 hr⟩
                    simpa [noEmptyP] using noEmptyP_collapse ks (C1 ks hk) sp hc
                  · rw [if_neg hsp]
                    exact R2 rest2 hr
          · rw [if_neg (by simp [hli])] at h
            exact R2 ns h
        · intro name ns h
          simp only [Planning.find_all_cells] at h
          have hhere : ∀ here,
              (if (n == name) = true then
                match Planning.parseKids ccs with
                | .error e => .error e
                | .ok ks =>
                  .ok (match collapse ks with
                       | some sp => if sp.truthy then [sp] else []
                       | none => [])
               else .ok [] : Except String (List Node)) = .ok here →
              noEmptyPL here = true := by
            intro here hh
            by_cases hn : (n == name) = true
            · rw [if_pos hn] at hh
              cases hk : Planning.parseKids ccs with
              | error e => rw [hk] at hh; simp at hh
              | ok ks =>
                rw [hk] at hh
                simp only [Except.ok.injEq] at hh
                subst hh
                cases hc : collapse ks with
                | none => rfl
                | some sp =>
                  simp only []
                  by_cases hsp : sp.truthy = true
                  · rw [if_pos hsp]
                    simp only [noEmptyPL, Bool.and_eq_true]
                    exact ⟨noEmptyP_collapse ks (C1 ks hk) sp hc, trivial⟩
                  · rw [if_neg hsp]; rfl
            · rw [if_neg hn] at hh
              simp only [Except.ok.injEq] at hh
              subst hh
              rfl
          cases hh : (if (n == name) = true then
                match Planning.parseKids ccs with
                | .error e => .error e
                | .ok ks =>
                  .ok (match collapse ks with
                       | some sp => if sp.truthy then [sp] else []
                       | none => [])
               else .ok [] : Except String (List Node)) with
          | error e => rw [hh] at h; simp at h
          | ok here =>
            rw [hh] at h
            cases hn : Planning.find_all_cells name ccs with
            | error e => rw [hn] at h; simp at h
            | ok nested =>
              rw [hn] at h
              cases hr : Planning.find_all_cells name rest with
              | error e => rw [hr] at h; simp at h
              | ok rest2 =>
                rw [hr] at h
                simp only [Except.ok.injEq] at h
                subst h
                simp only [noEmptyPL_append, Bool.and_eq_true]
                exact ⟨⟨hhere here hh, C3 name nested hn⟩, R3 name rest2 hr⟩
        · intro rs h
          simp only [Planning.parseBodyRows] at h
          by_cases htr : (n == "tr") = true
          · rw [if_pos htr] at h
            cases hcells : Planning.find_all_cells "td" ccs with
            | error e => rw [hcells] at h; simp at h
            | ok cells =>
              rw [hcells] at h
              cases hr : Planning.parseBodyRows rest with
              | error e => rw [hr] at h; simp at h
              | ok rest2 =>
                rw [hr] at h
                simp only [Except.ok.injEq] at h
                subst h
                simp only [noEmptyPB, Bool.and_eq_true]
                exact ⟨C3 "td" cells hcells, R4 rest2 hr⟩
          · rw [if_neg (by simp [htr])] at h
            exact R4 rs h
        · intro hdr body h
          simp only [Planning.findTbodyGo] at h
          by_cases htb : (n == "tbody") = true
          · rw [if_pos htb] at h
            simp only [Option.some.injEq] at h
            cases htr : Planning.findTrGo ccs with
            | none => rw [htr] at h; simp at h
            | some r =>
              rw [htr] at h
              simp only [] at h
              subst h
              exact C6 hdr body (by rw [htr])
          · rw [if_neg (by simp [htb])] at h
            cases htg : Planning.findTbodyGo ccs with
            | some r =>
              rw [htg] at h
              simp only [Option.some.injEq] at h
              subst h
              exact C5 hdr body (by rw [htg])
            | none =>
              rw [htg] at h
              exact R5 hdr body h
        · intro hdr body h
          simp only [Planning.findTrGo] at h
          by_cases htr : (n == "tr") = true
          · rw [if_pos htr] at h
            simp only [Option.some.injEq] at h
            cases hth : Planning.find_all_cells "th" ccs with
            | error e => rw [hth] at h; simp at h
            | ok hd2 =>
              rw [hth] at h
              cases hbr : Planning.parseBodyRows rest with
              | error e => rw [hbr] at h; simp at h
              | ok bd2 =>
                rw [hbr] at h
                simp only [Except.ok.injEq, Prod.mk.injEq] at h
                obtain ⟨hh1, hh2⟩ := h
                subst hh1; subst hh2
                exact ⟨C3 "th" hd2 hth, R4 bd2 hbr⟩
          · rw [if_neg (by simp [htr])] at h
            cases htg : Planning.findTrGo ccs with
            | some r =>
              rw [htg] at h
              simp only [Option.some.injEq] at h
              subst h
              exact C6 hdr body (by rw [htg])
            | none =>
              rw [htg] at h
              exact R6 hdr body h

theorem capSafe_cons (c : Html) (rest : List Html) (h : capSafeL (c :: rest) = true) :
    capSafeH c = true ∧ capSafeL rest = true := by
  simpa [capSafeL, Bool.and_eq_true] using h

theorem capSafe_children (n : String) (ccs : List Html)
    (h : capSafeH (.tag n ccs) = true) : capSafeL ccs = true := by
  simp only [capSafeH, Bool.and_eq_true] at h
  exact h.2

theorem capSafe_findFirst :
    ∀ (N : Nat) (cs : List Html), hsizeL cs ≤ N → ∀ name h,
      capSafeL cs = true → findFirst name cs = some h → capSafeH h = true := by
  intro N
  induction N with
  | zero =>
    intro cs hcs name h _ hf
    match cs with
    | [] => simp [findFirst] at hf
    | c :: rest =>
      exfalso
      have h1 := hsize_pos c
      simp only [hsizeL] at hcs
      omega
  | succ N ih =>
    intro cs hcs name h hsafe hf
    match cs with
    | [] => simp [findFirst] at hf
    | c :: rest =>
      have hrest : hsizeL rest ≤ N := by
        have h1 := hsize_pos c
        simp only [hsizeL] at hcs
        omega
      obtain ⟨hsc, hsr⟩ := capSafe_cons c rest hsafe
      cases c with
      | text s =>
        simp only [findFirst, findFirstH] at hf
        exact ih rest hrest name h hsr hf
      | tag n ccs =>
        have hccs : hsizeL ccs ≤ N := by
          simp only [hsizeL, hsize] at hcs
          omega
        simp only [findFirst, findFirstH] at hf
        by_cases hnn : (n == name) = true
        · rw [if_pos hnn] at hf
          simp only [Option.some.injEq] at hf
          subst hf
          exact hsc
        · rw [if_neg hnn] at hf
          cases hfc : findFirst name ccs with
          | some r =>
            rw [hfc] at hf
            simp only [Option.some.injEq] at hf
            subst hf
            exact ih ccs hccs name r (capSafe_children n ccs hsc) hfc
          | none =>
            rw [hfc] at hf
            exact ih rest hrest name h hsr hf

theorem parse_elem_erase_of (cs : List Html)
    (hsafe : capSafeL cs = true)
    (h1 : getTextL (eraseBrL cs) = getTextL cs)
    (hcorr : (findFirst "caption" (eraseBrL cs) = none ∧ findFirst "caption" cs = none)
      ∨ (∃ m mcs, (m == "caption") = true ∧
          findFirst "caption" cs = some (.tag m mcs) ∧
          findFirst "caption" (eraseBrL cs) = some (.tag m (eraseBrL mcs)) ∧
          getTextL (eraseBrL mcs) = getTextL mcs))
    (h4 : Planning.parseListItems (eraseBrL cs) = Planning.parseListItems cs)
    (h7 : Planning.findTbodyGo (eraseBrL cs) = Planning.findTbodyGo cs) :
    ∀ nm, Planning._parse_elem (.tag nm (eraseBrL cs)) =
      Planning._parse_elem (.tag nm cs) := by
  intro nm
  have hcap2 : captionOf (eraseBrL cs) = captionOf cs := by
    simp only [captionOf]
    rcases hcorr with ⟨hn1, hn2⟩ | ⟨m, mcs, hm, hf2, hf1, hgt⟩
    · rw [hn1, hn2]
    · rw [hf1, hf2]
      have hsafe2 := capSafe_findFirst (hsizeL cs) cs le_rfl "caption" _ hsafe hf2
      simp only [capSafeH, hm, Bool.not_true, Bool.false_or, Bool.and_eq_true] at hsafe2
      by_cases hmt : mcs.isEmpty = true
      · have hml : mcs = [] := by simpa [List.isEmpty_eq_true] using hmt
        subst hml
        simp [Html.pyTruthy, eraseBrL]
      · have hmf : mcs.isEmpty = false := by simp at hmt; simp [hmt]
        have hor := hsafe2.1
        rw [Bool.or_eq_true] at hor
        cases hor with
        | inl hl => rw [hl] at hmf; simp at hmf
        | inr hr =>
          have hef : (eraseBrL mcs).isEmpty = false := by
            simp only [Bool.not_eq_true'] at hr
            exact hr
          simp only [Html.pyTruthy, hmf, hef, Bool.not_false, if_true,
            Option.some.injEq, Html.getText]
          exact hgt
  simp only [Planning._parse_elem]
  rw [h1, h4, h7, hcap2]

theorem erase_br_facts :
    ∀ (N : Nat) (cs : List Html), hsizeL cs ≤ N → capSafeL cs = true →
      getTextL (eraseBrL cs) = getTextL cs
      ∧ (∀ name, (name == "br") = false →
          ((findFirst name (eraseBrL cs) = none ∧ findFirst name cs = none)
           ∨ (∃ m mcs, (m == name) = true ∧
               findFirst name cs = some (.tag m mcs) ∧
               findFirst name (eraseBrL cs) = some (.tag m (eraseBrL mcs)) ∧
               getTextL (eraseBrL mcs) = getTextL mcs)))
      ∧ Planning.parseKids (eraseBrL cs) = Planning.parseKids cs
      ∧ Planning.parseListItems (eraseBrL cs) = Planning.parseListItems cs
      ∧ (∀ name, (name == "br") = false →
          Planning.find_all_cells name (eraseBrL cs) = Planning.find_all_cells name cs)
      ∧ Planning.parseBodyRows (eraseBrL cs) = Planning.parseBodyRows cs
      ∧ Planning.findTbodyGo (eraseBrL cs) = Planning.findTbodyGo cs
      ∧ Planning.findTrGo (eraseBrL cs) = Planning.findTrGo cs := by
  intro N
  induction N with
  | zero =>
    intro cs hcs _
    match cs with
    | [] => exact ⟨rfl, fun _ _ => Or.inl ⟨rfl, rfl⟩, rfl, rfl, fun _ _ => rfl, rfl, rfl, rfl⟩
    | c :: rest =>
      exfalso
      have h1 := hsize_pos c
      simp only [hsizeL] at hcs
      omega
  | succ N ih =>
    intro cs hcs hsafe
    match cs with
    | [] => exact ⟨rfl, fun _ _ => Or.inl ⟨rfl, rfl⟩, rfl, rfl, fun _ _ => rfl, rfl, rfl, rfl⟩
    | c :: rest =>
      have hrest : hsizeL rest ≤ N := by
        have h1 := hsize_pos c
        simp only [hsizeL] at hcs
        omega
      obtain ⟨hsc, hsr⟩ := capSafe_cons c rest hsafe
      obtain ⟨G1, G2, G3, G4, G5, G6, G7, G8⟩ := ih rest hrest hsr
      cases c with
      | text s =>
        have heq : eraseBrL (Html.text s :: rest) = Html.text s :: eraseBrL rest := by
          simp [eraseBrL, eraseBrH]
        refine ⟨?_, ?_, ?_, ?_, ?_, ?_, ?_, ?_⟩
        · rw [heq]
          simp only [getTextL, Html.getText, G1]
        · intro name hname
          rw [heq]
          simp only [findFirst, findFirstH]
          exact G2 name hname
        · rw [heq]
          simp only [Planning.parseKids, G3]
        · rw [heq]
          simp only [Planning.parseListItems, G4]
        · intro name hname
          rw [heq]
          simp only [Planning.find_all_cells, G5 name hname]
        · rw [heq]
          simp only [Planning.parseBodyRows, G6]
        · rw [heq]
          simp only [Planning.findTbodyGo, G7]
        · rw [heq]
          simp only [Planning.findTrGo, G8]
      | tag n ccs =>
        have hccs : hsizeL ccs ≤ N := by
          simp only [hsizeL, hsize] at hcs
          omega
        by_cases herase : (n == "br" && ccs.isEmpty) = true
        · simp only [Bool.and_eq_true, beq_iff_eq, List.isEmpty_eq_true] at herase
          obtain ⟨hn, hcc⟩ := herase
          subst hn
          subst hcc
          have heq : eraseBrL (Html.tag "br" [] :: rest) = eraseBrL rest := by
            simp [eraseBrL, eraseBrH]
          refine ⟨?_, ?_, ?_, ?_, ?_, ?_, ?_, ?_⟩
          · rw [heq, G1]
            simp only [getTextL, Html.getText, String.empty_append]
          · intro name hname
            rw [heq]
            have hbr : ("br" == name) = false := by
              simp only [beq_eq_false_iff_ne] at hname ⊢
              exact fun hh => hname hh.symm
            simp only [findFirst, findFirstH, hbr, Bool.false_eq_true, if_false]
            exact G2 name hname
          · rw [heq, G3]
            cases hk : Planning.parseKids rest with
            | error e => simp [Planning.parseKids, Planning._parse_elem, hk]
            | ok r => simp [Planning.parseKids, Planning._parse_elem, hk, truthyO]
          · rw [heq, G4]
            simp [Planning.parseListItems]
          · intro name hname
            rw [heq, G5 name hname]
            have hbr : ("br" == name) = false := by
              simp only [beq_eq_false_iff_ne] at hname ⊢
              exact fun hh => hname hh.symm
            cases hk : Planning.find_all_cells name rest with
            | error e => simp [Planning.find_all_cells, hbr, hk]
            | ok r => simp [Planning.find_all_cells, hbr, hk]
          · rw [heq, G6]
            simp [Planning.parseBodyRows]
          · rw [heq, G7]
            simp [Planning.findTbodyGo]
          · rw [heq, G8]
            simp [Planning.findTrGo]
        · have hsccs : capSafeL ccs = true := capSafe_children n ccs hsc
          obtain ⟨C1, C2, C3, C4, C5, C6, C7x, C8x⟩ := ih ccs hccs hsccs
          have CE : ∀ nm, Planning._parse_elem (.tag nm (eraseBrL ccs)) =
              Planning._parse_elem (.tag nm ccs) :=
            parse_elem_erase_of ccs hsccs C1 (C2 "caption" (by decide)) C4 C7x
          have heq : eraseBrL (Html.tag n ccs :: rest) =
              Html.tag n (eraseBrL ccs) :: eraseBrL rest := by
            simp only [eraseBrL, eraseBrH, herase, Bool.false_eq_true, if_false]
            rfl
          refine ⟨?_, ?_, ?_, ?_, ?_, ?_, ?_, ?_⟩
          · rw [heq]
            simp only [getTextL, Html.getText, G1, C1]
          · intro name hname
            rw [heq]
            by_cases hnn : (n == name) = true
            · refine Or.inr ⟨n, ccs, hnn, ?_, ?_, C1⟩
              · simp [findFirst, findFirstH, hnn]
              · simp [findFirst, findFirstH, hnn]
            · simp only [findFirst, findFirstH, hnn, Bool.false_eq_true, if_false]
              rcases C2 name hname with ⟨hn1, hn2⟩ | ⟨m, mcs, hm, hf2, hf1, hgt⟩
              · rw [hn1, hn2]
                exact G2 name hname
              · rw [hf1, hf2]
                exact Or.inr ⟨m, mcs, hm, rfl, rfl, hgt⟩
          · rw [heq]
            simp only [Planning.parseKids, CE n, G3]
          · rw [heq]
            simp only [Planning.parseListItems, C3, G4]
          · intro name hname
            rw [heq]
            simp only [Planning.find_all_cells, C3, C5 name hname, G5 name hname]
          · rw [heq]
            simp only [Planning.parseBodyRows, C5 "td" (by decide), G6]
          · rw [heq]
            simp only [Planning.findTbodyGo, C8x, C7x, G7]
          · rw [heq]
            simp only [Planning.findTrGo, C5 "th" (by decide), C8x, G6, G8]

theorem parseOrdLoop_erase :
    ∀ (cs : List Html), capSafeL cs = true → ∀ (rules : List Rule) (current : Rule),
      Planning.parseOrdLoop (eraseBrL cs) rules current =
        Planning.parseOrdLoop cs rules current := by
  intro cs
  induction cs with
  | nil => intro _ rules current; rfl
  | cons c rest ih =>
    intro hsafe rules current
    obtain ⟨hsc, hsr⟩ := capSafe_cons c rest hsafe
    cases c with
    | text s =>
      have heq : eraseBrL (Html.text s :: rest) = Html.text s :: eraseBrL rest := by
        simp [eraseBrL, eraseBrH]
      rw [heq]
      simp [Planning.parseOrdLoop, Planning.isH3, Planning._parse_elem, truthyO, ih hsr]
    | tag n ccs =>
      by_cases herase : (n == "br" && ccs.isEmpty) = true
      · simp only [Bool.and_eq_true, beq_iff_eq, List.isEmpty_eq_true] at herase
        obtain ⟨hn, hcc⟩ := herase
        subst hn
        subst hcc
        have heq : eraseBrL (Html.tag "br" [] :: rest) = eraseBrL rest := by
          simp [eraseBrL, eraseBrH]
        rw [heq, ih hsr]
        simp [Planning.parseOrdLoop, Planning.isH3, Planning._parse_elem, truthyO]
      · have heq : eraseBrL (Html.tag n ccs :: rest) =
            Html.tag n (eraseBrL ccs) :: eraseBrL rest := by
          simp only [eraseBrL, eraseBrH, herase, Bool.false_eq_true, if_false]
          rfl
        rw [heq]
        have hsccs : capSafeL ccs = true := capSafe_children n ccs hsc
        obtain ⟨C1, C2, _, C4, _, _, C7x, _⟩ :=
          erase_br_facts (hsizeL ccs) ccs le_rfl hsccs
        have CE := parse_elem_erase_of ccs hsccs C1 (C2 "caption" (by decide)) C4 C7x
        have hh3 : Planning.isH3 (Html.tag n (eraseBrL ccs)) =
            Planning.isH3 (Html.tag n ccs) := by simp [Planning.isH3]
        have hgt : Html.getText (Html.tag n (eraseBrL ccs)) =
            Html.getText (Html.tag n ccs) := by
          simp only [Html.getText]
          exact C1
        simp only [Planning.parseOrdLoop, hh3, CE n, hgt, ih hsr]

/-- C9 counterexample: a line break that is a caption's only child: with
the br, elem.find("caption") is a Tag of one child, hence truthy, and the
caption field is set (to the empty text); with the br removed the caption
Tag is childless, hence falsy, and no caption field is set. The parsed
trees differ, so the program is not invariant under line-break
removal. -/
theorem c9_caption_br_counterexample :
    eraseBrL [Html.tag "table" [Html.tag "caption" [Html.tag "br" []],
        Html.tag "tbody" [Html.tag "tr" []]]] =
      [Html.tag "table" [Html.tag "caption" [],
        Html.tag "tbody" [Html.tag "tr" []]]] ∧
    Planning._parse_ord_section
        [Html.tag "table" [Html.tag "caption" [Html.tag "br" []],
          Html.tag "tbody" [Html.tag "tr" []]]] =
      .ok (some [⟨none, [.table [] [] (some "")]⟩]) ∧
    Planning._parse_ord_section
        [Html.tag "table" [Html.tag "caption" [],
          Html.tag "tbody" [Html.tag "tr" []]]] =
      .ok (some [⟨none, [.table [] [] none]⟩]) ∧
    (Except.ok (some [(⟨none, [.table [] [] (some "")]⟩ : Rule)]) :
        Except String (Option (List Rule))) ≠
      .ok (some [⟨none, [.table [] [] none]⟩]) := by
  refine ⟨rfl, rfl, rfl, ?_⟩
  intro h
  simp at h

/-- C9 amended: erasing every childless line-break element from a
fragment, at any depth, leaves the parsed rules exactly unchanged
provided no caption's truthiness is flipped by the erasure (every
caption element either has no children or keeps a child after erasure);
and a line-break element itself always parses to None, never an
error. -/
theorem c9_linebreak_invariance :
    (∀ cs, capSafeL cs = true →
      Planning._parse_ord_section (eraseBrL cs) = Planning._parse_ord_section cs)
    ∧ (∀ cs, Planning._parse_elem (.tag "br" cs) = .ok none) := by
  constructor
  · intro cs hsafe
    simp only [Planning._parse_ord_section, parseOrdLoop_erase cs hsafe]
  · intro cs
    simp [Planning._parse_elem]

/-- C9 witness: a caption-free fragment with line breaks interspersed at
two depths parses identically with and without them. -/
theorem c9_linebreak_invariance_witness :
    capSafeL [Html.tag "p" [Html.text "a"], Html.tag "br" [],
      Html.tag "ul" [Html.tag "br" [], Html.tag "li" [Html.tag "p" [Html.text "b"]]]] = true ∧
    Planning._parse_ord_section
        (eraseBrL [Html.tag "p" [Html.text "a"], Html.tag "br" [],
          Html.tag "ul" [Html.tag "br" [], Html.tag "li" [Html.tag "p" [Html.text "b"]]]]) =
      Planning._parse_ord_section
        [Html.tag "p" [Html.text "a"], Html.tag "br" [],
          Html.tag "ul" [Html.tag "br" [], Html.tag "li" [Html.tag "p" [Html.text "b"]]]] :=
  ⟨rfl, c9_linebreak_invariance.1 _ rfl⟩

/-- C7 amended: the parser produces a Paragraph node holding the p
element's raw text, untrimmed, and produces nothing exactly when that
text is empty; consequently no Paragraph node with empty text ever
occurs in any value the parser returns. -/
theorem c7_paragraph_node :
    (∀ cs, Planning._parse_elem (.tag "p" cs) =
      .ok (if getTextL cs == "" then none else some (.p (getTextL cs))))
    ∧ (∀ h node, Planning._parse_elem h = .ok (some node) → noEmptyP node = true) := by
  refine ⟨parse_p_eval, ?_⟩
  intro h node hp
  cases h with
  | text s => simp [Planning._parse_elem] at hp
  | tag nm cs =>
    obtain ⟨_, K2, _, _, K5, _⟩ := parser_noEmpty_facts (hsizeL cs) cs le_rfl
    exact parse_elem_noEmpty_of cs K2 K5 nm node hp

/-- C7 witness: the paragraph parsed from a p element with text "x"
satisfies the no-empty-text invariant. -/
theorem c7_paragraph_node_witness : noEmptyP (.p "x") = true :=
  c7_paragraph_node.2 (.tag "p" [.text "x"]) (.p "x") rfl
